import Mathlib

set_option maxRecDepth 100000

/-!
# BIP32 extended private keys: shallow embedding of wallet/keys/hd_private.cpp

A shallow embedding of the hierarchical-deterministic key engine of
libbitcoin-system (hd_private.cpp).  Bytes are modelled as natural numbers
below 256, byte arrays as lists.  The external cryptographic collaborators
(the 512-bit keyed hash, the curve point operations, the double-hash
checksum and the fingerprint short hash) are out of scope for the engine
and are therefore parameters, packaged in the structure Prims together with
the length contracts their interfaces guarantee.  Everything the engine
itself does (field layout, parsing, serialization, derivation control
flow) is translated directly from the source.
-/

/-- Big-endian interpretation of a byte list (from_big_endian). -/
def beToNat (l : List Nat) : Nat := l.foldl (fun a b => 256 * a + b) 0

/-- Fixed-width big-endian byte encoding of a natural number (to_big_endian,
    width in bytes; a one-byte width models to_array of a uint8). -/
def natToBe : Nat → Nat → List Nat
  | 0, _ => []
  | k + 1, v => natToBe k (v / 256) ++ [v % 256]

/-- The external cryptographic collaborators consumed by the engine,
    with the contracts their interfaces guarantee.  Modelled from the spec:
    the curve, keyed-hash, checksum and fingerprint primitives are external
    to this system (interfaces only), so they appear as parameters.
    n is the curve group order: scalars are 32 bytes, so n fits 2^256. -/
structure Prims where
  n : Nat
  one_lt_n : 1 < n
  n_le : n ≤ 2 ^ 256
  hmac512 : List Nat → List Nat → List Nat
  hmac512_len : ∀ d k, (hmac512 d k).length = 64
  pointOf : List Nat → List Nat
  pointOf_len : ∀ s, (pointOf s).length = 33
  pointValid : List Nat → Bool
  pointOf_valid : ∀ s, pointValid (pointOf s) = true
  checksum : List Nat → List Nat
  checksum_len : ∀ m, (checksum m).length = 4
  fingerprintOf : List Nat → Nat
  fingerprintOf_lt : ∀ p, fingerprintOf p < 2 ^ 32

/-- Modelled from the spec: to_prefixes packs the private version word into
    the high 32 bits and the public version word into the low 32 bits of a
    64-bit value (section 4.5; header not under src). -/
def to_prefixes (privVer pubVer : Nat) : Nat :=
  (privVer % 2 ^ 32) * 2 ^ 32 + pubVer % 2 ^ 32

/-- Modelled from the spec: hd_private extracts the private (high) version
    word of the packed pair, as a 32-bit value. -/
def to_prefix_priv (prefixes : Nat) : Nat := prefixes / 2 ^ 32 % 2 ^ 32

/-- Modelled from the spec: hd_public extracts the public (low) version
    word of the packed pair. -/
def to_prefix_pub (prefixes : Nat) : Nat := prefixes % 2 ^ 32

/-- Lineage record: packed version-pair, depth, parent fingerprint and
    child number (hd_lineage). -/
structure hd_lineage where
  prefixes : Nat
  depth : Nat
  parent_fingerprint : Nat
  child_number : Nat
deriving DecidableEq

/-- Extended public key state: validity flag, 33-byte compressed point,
    32-byte chain code and lineage (hd_public data members). -/
structure hd_public where
  valid : Bool
  point : List Nat
  chain : List Nat
  lineage : hd_lineage
deriving DecidableEq

/-- Extended private key: the hd_public base subobject plus the 32-byte
    secret (hd_private data members). -/
structure hd_private where
  pub : hd_public
  secret : List Nat
deriving DecidableEq

/-- The default-constructed hd_public: invalid, with zeroed point, chain
    code and lineage. -/
def hd_public.default_key : hd_public :=
  ⟨false, List.replicate 33 0, List.replicate 32 0, ⟨0, 0, 0, 0⟩⟩

/-- The default-constructed hd_private sentinel: invalid base subobject and
    secret_ = null_hash (32 zero bytes). -/
def hd_private.default_key : hd_private :=
  ⟨hd_public.default_key, List.replicate 32 0⟩

/-- Modelled from the spec: the external scalar validity check
    (verify(ec_secret)): a secret is valid iff 0 < secret < curve order
    (section 3 invariant). -/
def verify (E : Prims) (secret : List Nat) : Bool :=
  decide (0 < beToNat secret) && decide (beToNat secret < E.n)

/-- Modelled from the spec: hd_public::from_secret (hd_public.cpp is not
    under src).  Computes the public point from the secret at construction
    time; an invalid scalar produces the default invalid key object. -/
def from_secret (E : Prims) (secret chain : List Nat) (lineage : hd_lineage) :
    hd_public :=
  if verify E secret then ⟨true, E.pointOf secret, chain, lineage⟩
  else hd_public.default_key

/-- The private hd_private(secret, chain_code, lineage) constructor: the
    base subobject is from_secret of the arguments and secret_ is stored. -/
def hd_private.make (E : Prims) (secret chain : List Nat)
    (lineage : hd_lineage) : hd_private :=
  ⟨from_secret E secret chain lineage, secret⟩

/-- hd_private::from_private: reject an invalid scalar, otherwise build the
    master key with lineage {prefixes, depth 0, fingerprint 0, child 0}. -/
def hd_private.from_private (E : Prims) (secret chain : List Nat)
    (prefixes : Nat) : hd_private :=
  if verify E secret then hd_private.make E secret chain ⟨prefixes, 0, 0, 0⟩
  else hd_private.default_key

/-- The ASCII bytes of the BIP32 magic constant "Bitcoin seed". -/
def bitcoinSeed : List Nat :=
  [66, 105, 116, 99, 111, 105, 110, 32, 115, 101, 101, 100]

/-- The public hd_private(secret, chain_code, prefixes) constructor
    (lines 96-101): the hd_public base subobject is sliced from
    from_private's result, while secret_ is stored unconditionally, so a
    failed scalar validation still leaves the given secret in the invalid
    object. -/
def hd_private.make_master (E : Prims) (secret chain : List Nat)
    (prefixes : Nat) : hd_private :=
  ⟨(hd_private.from_private E secret chain prefixes).pub, secret⟩

/-- hd_private::from_entropy: HMAC-SHA512 of the entropy keyed with the
    magic constant, left half the master secret, right half the master
    chain code, through the public constructor. -/
def hd_private.from_entropy (E : Prims) (entropy : List Nat) (prefixes : Nat) :
    hd_private :=
  let I := E.hmac512 entropy bitcoinSeed
  hd_private.make_master E (I.take 32) (I.drop 32) prefixes

/-- hd_private::from_key (prefixes overload): read version(4 BE), depth(1),
    parent fingerprint(4 BE), child number(4 BE), chain code(32), skip one
    byte, secret(32); reject when the version word differs from the private
    version of the supplied prefixes. -/
def hd_private.from_key (E : Prims) (key : List Nat) (prefixes : Nat) :
    hd_private :=
  if beToNat (key.take 4) = to_prefix_priv prefixes then
    hd_private.make E ((key.drop 46).take 32) ((key.drop 13).take 32)
      ⟨prefixes, beToNat ((key.drop 4).take 1), beToNat ((key.drop 5).take 4),
        beToNat ((key.drop 9).take 4)⟩
  else hd_private.default_key

/-- The Bitcoin base-58 alphabet as ASCII codes. -/
def b58chars : List Nat :=
  [49, 50, 51, 52, 53, 54, 55, 56, 57,
   65, 66, 67, 68, 69, 70, 71, 72, 74, 75, 76, 77, 78,
   80, 81, 82, 83, 84, 85, 86, 87, 88, 89, 90,
   97, 98, 99, 100, 101, 102, 103, 104, 105, 106, 107, 109, 110, 111,
   112, 113, 114, 115, 116, 117, 118, 119, 120, 121, 122]

/-- Index of a character code in an alphabet (none when absent). -/
def charIndex : List Nat → Nat → Nat → Option Nat
  | [], _, _ => none
  | x :: xs, c, i => if x = c then some i else charIndex xs c (i + 1)

/-- Accumulate the base-58 value of a character-code list; none on the
    first character outside the alphabet. -/
def b58value : List Nat → Nat → Option Nat
  | [], acc => some acc
  | c :: cs, acc =>
    match charIndex b58chars c 0 with
    | none => none
    | some d => b58value cs (58 * acc + d)

/-- Number of leading ASCII ones in a character-code list. -/
def countLeadingOnes : List Nat → Nat
  | [] => 0
  | c :: cs => if c = 49 then countLeadingOnes cs + 1 else 0

/-- Minimal big-endian byte expansion with a fuel bound; fuel 100 is
    exact for every value of at most 100 bytes and still rejects (by
    producing a wrong-length list) anything larger, which is all the
    82-byte decoder below can accept. -/
def natToBytesAux : Nat → Nat → List Nat
  | 0, _ => []
  | fuel + 1, v => if v = 0 then [] else natToBytesAux fuel (v / 256) ++ [v % 256]

/-- Number of leading zero bytes. -/
def countLeadingZeroBytes : List Nat → Nat
  | [] => 0
  | b :: bs => if b = 0 then countLeadingZeroBytes bs + 1 else 0

/-- Modelled from the spec: the external base-58 text decoder
    (decode_base58 into a fixed 82-byte hd_key): leading ones become
    leading zero bytes, the remaining value is written big-endian, and the
    decode succeeds only when the result is exactly 82 bytes. -/
def decode_base58 (cs : List Nat) : Option (List Nat) :=
  match b58value cs 0 with
  | none => none
  | some v =>
    let bytes := List.replicate (countLeadingOnes cs) 0 ++ natToBytesAux 100 v
    if bytes.length = 82 then some bytes else none

/-- Base-58 digit list of a value with a fuel bound (82-byte keys need at
    most 112 digits, well below the bound). -/
def natToB58Aux : Nat → Nat → List Nat
  | 0, _ => []
  | fuel + 1, v =>
    if v = 0 then [] else natToB58Aux fuel (v / 58) ++ [b58chars.getD (v % 58) 0]

/-- Modelled from the spec: the external base-58 text encoder
    (encode_base58): one leading ASCII one per leading zero byte, then the
    base-58 digits of the big-endian value. -/
def encode_base58 (bytes : List Nat) : List Nat :=
  List.replicate (countLeadingZeroBytes bytes) 49 ++ natToB58Aux 200 (beToNat bytes)

/-- hd_private::from_string (prefixes overload): base-58 decode then
    from_key; a structural decode failure yields the default sentinel. -/
def hd_private.from_string (E : Prims) (cs : List Nat) (prefixes : Nat) :
    hd_private :=
  match decode_base58 cs with
  | some key => hd_private.from_key E key prefixes
  | none => hd_private.default_key

/-- insert_checksum: append the 4-byte checksum of the payload (the
    checksum primitive itself is the external double-hash collaborator). -/
def insert_checksum (E : Prims) (payload : List Nat) : List Nat :=
  payload ++ E.checksum payload

/-- hd_private::to_hd_key: version(4 BE, private word of the pair),
    depth(1), parent fingerprint(4 BE), child number(4 BE), chain code(32),
    0x00 padding, secret(32), then the checksum. -/
def hd_private.to_hd_key (E : Prims) (k : hd_private) : List Nat :=
  insert_checksum E
    (natToBe 4 (to_prefix_priv k.pub.lineage.prefixes) ++
      natToBe 1 k.pub.lineage.depth ++
      natToBe 4 k.pub.lineage.parent_fingerprint ++
      natToBe 4 k.pub.lineage.child_number ++
      k.pub.chain ++ [0] ++ k.secret)

/-- hd_private::encoded: base-58 text of the checksummed wire key. -/
def hd_private.encoded (E : Prims) (k : hd_private) : List Nat :=
  encode_base58 (hd_private.to_hd_key E k)

/-- Modelled from the spec: the hd_public point constructor (section 3): an
    invalid curve point produces the default invalid key object. -/
def hd_public.make (E : Prims) (point chain : List Nat)
    (lineage : hd_lineage) : hd_public :=
  if E.pointValid point then ⟨true, point, chain, lineage⟩
  else hd_public.default_key

/-- Modelled from the spec: hd_public::to_hd_key (hd_public.cpp is not
    under src): the section 4.4 layout with the public version word and the
    compressed point as key data, then the checksum. -/
def hd_public.to_hd_key (E : Prims) (p : hd_public) : List Nat :=
  insert_checksum E
    (natToBe 4 (to_prefix_pub p.lineage.prefixes) ++
      natToBe 1 p.lineage.depth ++
      natToBe 4 p.lineage.parent_fingerprint ++
      natToBe 4 p.lineage.child_number ++
      p.chain ++ p.point)

/-- Modelled from the spec: hd_public::from_key (hd_public.cpp is not under
    src): parse the section 4.4 public layout and reject a version word
    that differs from the expected public prefix; the stored lineage keeps
    that 32-bit word. -/
def hd_public.from_key (E : Prims) (key : List Nat) (ver : Nat) : hd_public :=
  if beToNat (key.take 4) = ver then
    hd_public.make E ((key.drop 45).take 33) ((key.drop 13).take 32)
      ⟨ver, beToNat ((key.drop 4).take 1), beToNat ((key.drop 5).take 4),
        beToNat ((key.drop 9).take 4)⟩
  else hd_public.default_key

/-- hd_private::to_public: serialize the base subobject with the public
    version word and re-parse it as an hd_public expecting that word. -/
def hd_private.to_public (E : Prims) (k : hd_private) : hd_public :=
  hd_public.from_key E (hd_public.to_hd_key E k.pub)
    (to_prefix_pub k.pub.lineage.prefixes)

/-- Modelled from the spec: the external curve primitive ec_add (scalar
    addition mod the group order, section 6).  Per section 4.2 step 4 it
    fails when the tweak is at least the group order or the sum is zero,
    and per the section 7 propagation policy an out-of-range base scalar
    (the sentinel's zero secret included) also fails, which is what makes
    invalidity infectious through derivation chains. -/
def ec_add (E : Prims) (secret tweak : List Nat) : Option (List Nat) :=
  if 0 < beToNat secret ∧ beToNat secret < E.n ∧ beToNat tweak < E.n ∧
      (beToNat secret + beToNat tweak) % E.n ≠ 0 then
    some (natToBe 32 ((beToNat secret + beToNat tweak) % E.n))
  else none

/-- The keyed-hash message of a derivation step (the local data of
    derive_private): hardened (index at least 2^31) uses
    0x00 | secret | be32 index, non-hardened uses point | be32 index. -/
def derive_data (k : hd_private) (index : Nat) : List Nat :=
  if 2 ^ 31 ≤ index then 0 :: (k.secret ++ natToBe 4 index)
  else k.pub.point ++ natToBe 4 index

/-- The 64-byte keyed-hash output of a derivation step: HMAC-SHA512 of the
    message, keyed with the parent chain code. -/
def derive_I (E : Prims) (k : hd_private) (index : Nat) : List Nat :=
  E.hmac512 (derive_data k index) k.pub.chain

/-- hd_private::derive_private: child secret by ec_add of the parent secret
    and the left half of the keyed-hash output, chain code the right half,
    depth-255 parents rejected, child lineage depth+1 (uint8 cast),
    fingerprint of the parent point, child number the index. -/
def hd_private.derive_private (E : Prims) (k : hd_private) (index : Nat) :
    hd_private :=
  match ec_add E k.secret ((derive_I E k index).take 32) with
  | none => hd_private.default_key
  | some child =>
    if k.pub.lineage.depth = 255 then hd_private.default_key
    else
      hd_private.make E child ((derive_I E k index).drop 32)
        ⟨k.pub.lineage.prefixes, (k.pub.lineage.depth + 1) % 256,
          E.fingerprintOf k.pub.point, index⟩

/-- hd_private::derive_public: derive the private child and project it. -/
def hd_private.derive_public (E : Prims) (k : hd_private) (index : Nat) :
    hd_public :=
  hd_private.to_public E (hd_private.derive_private E k index)

/-- The validity invariant every key object built by this module satisfies:
    the validity flag agrees with scalar validity of the stored secret. -/
def validity_inv (E : Prims) (k : hd_private) : Prop :=
  k.pub.valid = verify E k.secret

/-- Well-formedness of a valid in-memory key as the C++ types guarantee it:
    flagged valid, point computed from the secret, 32-byte chain code, and
    lineage fields inside their uint8/uint32 ranges. -/
def wf_key (E : Prims) (k : hd_private) : Prop :=
  k.pub.valid = true ∧ k.pub.point = E.pointOf k.secret ∧
  k.pub.chain.length = 32 ∧ k.pub.lineage.depth < 256 ∧
  k.pub.lineage.parent_fingerprint < 2 ^ 32 ∧
  k.pub.lineage.child_number < 2 ^ 32

/-! ## A concrete instantiation of the external collaborators

Used to evaluate the engine on explicit inputs: a small group order, a
constant keyed-hash output whose left half is the scalar 1, a constant
point, a constant zero checksum and a constant fingerprint, all meeting
the interface contracts. -/

def hmacConst : List Nat :=
  List.replicate 31 0 ++ 1 :: (List.replicate 30 0 ++ [2, 3])

def E0 : Prims where
  n := 97
  one_lt_n := by norm_num
  n_le := by norm_num
  hmac512 := fun _ _ => hmacConst
  hmac512_len := fun _ _ => rfl
  pointOf := fun _ => List.replicate 33 7
  pointOf_len := fun _ => rfl
  pointValid := fun _ => true
  pointOf_valid := fun _ => rfl
  checksum := fun _ => [0, 0, 0, 0]
  checksum_len := fun _ => rfl
  fingerprintOf := fun _ => 3
  fingerprintOf_lt := fun _ => by norm_num

/-- A packed version pair: private word 7, public word 9. -/
def prefixesT : Nat := to_prefixes 7 9

/-- A concrete in-range secret (the scalar 5). -/
def secretT : List Nat := List.replicate 31 0 ++ [5]

/-- A concrete chain code. -/
def chainT : List Nat := List.replicate 32 0

/-- A concrete valid key at depth 1. -/
def keyT : hd_private :=
  hd_private.make E0 secretT chainT ⟨prefixesT, 1, 2, 3⟩

/-- A conforming 82-byte wire key under E0: version 7, depth 1,
    fingerprint 2, child 3, a chain code, zero padding, the secret 5 and
    the matching (constant zero) checksum. -/
def wireT : List Nat :=
  [0, 0, 0, 7] ++ [1] ++ [0, 0, 0, 2] ++ [0, 0, 0, 3] ++
    (List.replicate 31 0 ++ [9]) ++ [0] ++ secretT ++ [0, 0, 0, 0]

/-- wireT with its four checksum bytes replaced. -/
def wireT2 : List Nat := wireT.take 78 ++ [9, 9, 9, 9]

/-- wireT with a checksum that fails verification under E0. -/
def c3bytes : List Nat := wireT.take 78 ++ [1, 0, 0, 0]

/-- The base-58 text of c3bytes (111 characters, three leading ones for
    the three leading zero bytes). -/
def c3text : List Nat :=
  [49, 49, 49, 50, 49, 65, 110, 119, 51, 56, 53, 51, 106, 121, 104, 86,
   81, 81, 119, 107, 109, 51, 67, 104, 84, 81, 81, 77, 67, 67, 65, 107,
   121, 115, 88, 71, 113, 105, 110, 113, 119, 74, 71, 103, 101, 90, 53,
   98, 57, 97, 109, 77, 80, 116, 117, 106, 76, 100, 116, 122, 106, 110,
   76, 65, 112, 112, 78, 52, 78, 90, 103, 120, 52, 57, 116, 103, 104,
   117, 84, 52, 78, 117, 113, 113, 52, 51, 97, 50, 109, 117, 51, 74, 90,
   49, 115, 107, 67, 53, 120, 77, 120, 107, 78, 70, 75, 77, 101, 81, 104,
   66, 117]

/-! ## Byte-encoding lemmas -/

theorem beToNat_snoc (xs : List Nat) (x : Nat) :
    beToNat (xs ++ [x]) = 256 * beToNat xs + x := by
  simp [beToNat]

theorem natToBe_length (k v : Nat) : (natToBe k v).length = k := by
  induction k generalizing v with
  | zero => rfl
  | succ k ih => simp [natToBe, ih]

theorem natToBe_beToNat (l : List Nat) (h : ∀ x ∈ l, x < 256) :
    natToBe l.length (beToNat l) = l := by
  induction l using List.reverseRecOn with
  | nil => rfl
  | append_singleton xs x ih =>
    have hx : x < 256 := h x (by simp)
    have hxs : ∀ y ∈ xs, y < 256 := fun y hy => h y (by simp [hy])
    have hdiv : (256 * beToNat xs + x) / 256 = beToNat xs := by omega
    have hmod : (256 * beToNat xs + x) % 256 = x := by omega
    simp only [List.length_append, List.length_singleton, beToNat_snoc,
      natToBe, hdiv, hmod, ih hxs]

theorem beToNat_natToBe (k v : Nat) : beToNat (natToBe k v) = v % 256 ^ k := by
  induction k generalizing v with
  | zero => simp [natToBe, beToNat, Nat.mod_one]
  | succ k ih =>
    have h1 : v % (256 * 256 ^ k) = v % 256 + 256 * (v / 256 % 256 ^ k) :=
      Nat.mod_mul
    simp only [natToBe, beToNat_snoc, ih]
    rw [pow_succ, mul_comm (256 ^ k) 256, h1]
    omega

theorem natToBe_mem_lt (k v : Nat) : ∀ x ∈ natToBe k v, x < 256 := by
  induction k generalizing v with
  | zero => simp [natToBe]
  | succ k ih =>
    intro x hx
    simp only [natToBe, List.mem_append, List.mem_singleton] at hx
    rcases hx with hx | hx
    · exact ih _ x hx
    · omega

/-! ## List segmentation lemmas -/

theorem take78_decomp (b : List Nat) :
    b.take 78 = b.take 4 ++ ((b.drop 4).take 1 ++ ((b.drop 5).take 4 ++
      ((b.drop 9).take 4 ++ ((b.drop 13).take 32 ++ ((b.drop 45).take 1 ++
      (b.drop 46).take 32))))) := by
  have e1 : b.take 78 = b.take 4 ++ (b.drop 4).take 74 := List.take_add b 4 74
  have e2 : (b.drop 4).take 74 = (b.drop 4).take 1 ++ (b.drop 5).take 73 := by
    have h := List.take_add (b.drop 4) 1 73
    rwa [List.drop_drop] at h
  have e3 : (b.drop 5).take 73 = (b.drop 5).take 4 ++ (b.drop 9).take 69 := by
    have h := List.take_add (b.drop 5) 4 69
    rwa [List.drop_drop] at h
  have e4 : (b.drop 9).take 69 = (b.drop 9).take 4 ++ (b.drop 13).take 65 := by
    have h := List.take_add (b.drop 9) 4 65
    rwa [List.drop_drop] at h
  have e5 : (b.drop 13).take 65 =
      (b.drop 13).take 32 ++ (b.drop 45).take 33 := by
    have h := List.take_add (b.drop 13) 32 33
    rwa [List.drop_drop] at h
  have e6 : (b.drop 45).take 33 = (b.drop 45).take 1 ++ (b.drop 46).take 32 := by
    have h := List.take_add (b.drop 45) 1 32
    rwa [List.drop_drop] at h
  rw [e1, e2, e3, e4, e5, e6]

theorem take78_read (b : List Nat) (i j : Nat) (h : i + j ≤ 78) :
    ((b.take 78).drop i).take j = (b.drop i).take j := by
  rw [List.drop_take, List.take_take]
  congr 1
  omega

/-- from_key reads only the first 78 bytes of its input. -/
theorem from_key_take78 (E : Prims) (b : List Nat) (prefixes : Nat) :
    hd_private.from_key E (b.take 78) prefixes =
      hd_private.from_key E b prefixes := by
  unfold hd_private.from_key
  rw [show (b.take 78).take 4 = b.take 4 by rw [List.take_take]; norm_num,
    take78_read b 4 1 (by omega), take78_read b 5 4 (by omega),
    take78_read b 9 4 (by omega), take78_read b 13 32 (by omega),
    take78_read b 46 32 (by omega)]

/-! ## Construction invariants -/

theorem beToNat_zero32 : beToNat (List.replicate 32 0) = 0 := by decide

theorem validity_inv_default (E : Prims) :
    validity_inv E hd_private.default_key := by
  show (false : Bool) = verify E (List.replicate 32 0)
  unfold verify
  rw [beToNat_zero32]
  simp

theorem validity_inv_make (E : Prims) (s c : List Nat) (l : hd_lineage) :
    validity_inv E (hd_private.make E s c l) := by
  unfold validity_inv hd_private.make from_secret
  cases hv : verify E s with
  | false => simp [hv, hd_public.default_key]
  | true => simp [hv]

theorem make_of_verify (E : Prims) (s c : List Nat) (l : hd_lineage)
    (h : verify E s = true) :
    hd_private.make E s c l = ⟨⟨true, E.pointOf s, c, l⟩, s⟩ := by
  unfold hd_private.make from_secret
  rw [h]
  simp

/-- Case analysis of a derivation step: either the sentinel comes back, or
    the depth was below 255, ec_add succeeded, and the child is built from
    its output and the right hash half. -/
theorem derive_private_cases (E : Prims) (k : hd_private) (i : Nat) :
    hd_private.derive_private E k i = hd_private.default_key ∨
    (k.pub.lineage.depth ≠ 255 ∧ ∃ child,
      ec_add E k.secret ((derive_I E k i).take 32) = some child ∧
      hd_private.derive_private E k i =
        hd_private.make E child ((derive_I E k i).drop 32)
          ⟨k.pub.lineage.prefixes, (k.pub.lineage.depth + 1) % 256,
            E.fingerprintOf k.pub.point, i⟩) := by
  unfold hd_private.derive_private
  cases hadd : ec_add E k.secret ((derive_I E k i).take 32) with
  | none => exact Or.inl rfl
  | some child =>
    by_cases hd255 : k.pub.lineage.depth = 255
    · simp [hd255]
    · simp only [hd255, if_false]
      exact Or.inr ⟨hd255, child, rfl, rfl⟩

/-! ## Claim theorems -/

/-- Claim C4: for every extended private key whose valid flag is false
    (subject to the validity invariant every key built by the module
    satisfies, the default-constructed sentinel included) and every index,
    derive_private yields a key whose valid flag is also false: an invalid
    intermediate poisons all downstream derivation results. -/
theorem invalid_parent_poisons_derivation (E : Prims) (k : hd_private)
    (i : Nat) (hinv : validity_inv E k) (hval : k.pub.valid = false) :
    (hd_private.derive_private E k i).pub.valid = false := by
  have hv : verify E k.secret = false := by
    rw [validity_inv, hval] at hinv
    exact hinv.symm
  have hadd : ec_add E k.secret ((derive_I E k i).take 32) = none := by
    unfold ec_add
    rw [if_neg]
    rintro ⟨h1, h2, -, -⟩
    have ht : verify E k.secret = true := by
      unfold verify
      rw [decide_eq_true h1, decide_eq_true h2]
      rfl
    rw [ht] at hv
    exact Bool.noConfusion hv
  unfold hd_private.derive_private
  rw [hadd]
  rfl

/-- Claim C5: a valid derivation from a parent of depth below 255 carries
    depth parent-depth + 1, and a parent at depth 255 always derives the
    invalid sentinel instead of wrapping the counter. -/
theorem derive_private_depth_spec (E : Prims) (k : hd_private) (i : Nat) :
    (k.pub.lineage.depth < 255 →
      (hd_private.derive_private E k i).pub.valid = true →
      (hd_private.derive_private E k i).pub.lineage.depth =
        k.pub.lineage.depth + 1) ∧
    (k.pub.lineage.depth = 255 →
      (hd_private.derive_private E k i).pub.valid = false) := by
  constructor
  · intro hlt hvalid
    rcases derive_private_cases E k i with heq | ⟨-, child, -, heq⟩
    · rw [heq] at hvalid
      exact absurd hvalid (by decide)
    · have hmk := validity_inv_make E child ((derive_I E k i).drop 32)
        ⟨k.pub.lineage.prefixes, (k.pub.lineage.depth + 1) % 256,
          E.fingerprintOf k.pub.point, i⟩
      rw [heq] at hvalid ⊢
      rw [validity_inv, hvalid] at hmk
      rw [make_of_verify E child _ _ hmk.symm]
      show (k.pub.lineage.depth + 1) % 256 = k.pub.lineage.depth + 1
      omega
  · intro h255
    rcases derive_private_cases E k i with heq | ⟨hne, -⟩
    · rw [heq]
      rfl
    · exact absurd h255 hne

/-- Claim C8: from_key returns the invalid default key object whenever the
    leading 4-byte big-endian version word of the wire key differs from the
    private version of the supplied prefixes. -/
theorem from_key_version_mismatch_spec (E : Prims) (key : List Nat)
    (prefixes : Nat) (h : beToNat (key.take 4) ≠ to_prefix_priv prefixes) :
    hd_private.from_key E key prefixes = hd_private.default_key ∧
    (hd_private.from_key E key prefixes).pub.valid = false := by
  unfold hd_private.from_key
  rw [if_neg h]
  exact ⟨rfl, rfl⟩

/-- Claim C10: two wire keys that agree on their first 78 bytes parse to
    equal hd_private results under every prefixes value: from_key never
    inspects the 4 trailing checksum bytes. -/
theorem from_key_checksum_independence (E : Prims) (b1 b2 : List Nat)
    (prefixes : Nat) (h : b1.take 78 = b2.take 78) :
    hd_private.from_key E b1 prefixes = hd_private.from_key E b2 prefixes := by
  rw [← from_key_take78 E b1, ← from_key_take78 E b2, h]

theorem derive_private_eq_none (E : Prims) (k : hd_private) (i : Nat)
    (hadd : ec_add E k.secret ((derive_I E k i).take 32) = none) :
    hd_private.derive_private E k i = hd_private.default_key := by
  unfold hd_private.derive_private
  rw [hadd]

theorem derive_private_eq_some (E : Prims) (k : hd_private) (i : Nat)
    (child : List Nat)
    (hadd : ec_add E k.secret ((derive_I E k i).take 32) = some child)
    (hdep : k.pub.lineage.depth ≠ 255) :
    hd_private.derive_private E k i =
      hd_private.make E child ((derive_I E k i).drop 32)
        ⟨k.pub.lineage.prefixes, (k.pub.lineage.depth + 1) % 256,
          E.fingerprintOf k.pub.point, i⟩ := by
  unfold hd_private.derive_private
  rw [hadd]
  exact if_neg hdep

/-- Claim C1: a derivation step on a valid parent below the depth limit
    builds the keyed-hash message as 0x00 | secret(32B) | be32(i) when
    i ≥ 2^31 and as compressed_point(33B) | be32(i) otherwise, computes
    HMAC-SHA512 keyed with the parent chain code, splits the 64-byte output
    into halves IL and IR, sets the child secret to (IL + parent secret)
    mod n and the child chain code to IR, and yields an invalid key when
    IL ≥ n or the resulting child secret is zero. -/
theorem derive_private_hmac_child_spec (E : Prims) (k : hd_private) (i : Nat)
    (hi : i < 2 ^ 32) (hs0 : 0 < beToNat k.secret)
    (hsn : beToNat k.secret < E.n) (hdep : k.pub.lineage.depth ≠ 255) :
    derive_I E k i =
      E.hmac512 (if 2 ^ 31 ≤ i then 0 :: (k.secret ++ natToBe 4 i)
        else k.pub.point ++ natToBe 4 i) k.pub.chain ∧
    ((E.n ≤ beToNat ((derive_I E k i).take 32) ∨
        (beToNat ((derive_I E k i).take 32) + beToNat k.secret) % E.n = 0) →
      hd_private.derive_private E k i = hd_private.default_key ∧
      (hd_private.derive_private E k i).pub.valid = false) ∧
    (beToNat ((derive_I E k i).take 32) < E.n →
      (beToNat ((derive_I E k i).take 32) + beToNat k.secret) % E.n ≠ 0 →
      (hd_private.derive_private E k i).secret =
        natToBe 32
          ((beToNat ((derive_I E k i).take 32) + beToNat k.secret) % E.n) ∧
      (hd_private.derive_private E k i).pub.chain =
        (derive_I E k i).drop 32 ∧
      (hd_private.derive_private E k i).pub.valid = true) := by
  refine ⟨rfl, ?_, ?_⟩
  · intro h
    have hadd : ec_add E k.secret ((derive_I E k i).take 32) = none := by
      unfold ec_add
      rw [if_neg]
      rintro ⟨-, -, h3, h4⟩
      rcases h with h | h
      · omega
      · rw [Nat.add_comm] at h
        exact h4 h
    rw [derive_private_eq_none E k i hadd]
    exact ⟨rfl, rfl⟩
  · intro h1 h2
    have hvne :
        (beToNat k.secret + beToNat ((derive_I E k i).take 32)) % E.n ≠ 0 := by
      rwa [Nat.add_comm] at h2
    have hadd : ec_add E k.secret ((derive_I E k i).take 32) =
        some (natToBe 32
          ((beToNat k.secret + beToNat ((derive_I E k i).take 32)) % E.n)) := by
      unfold ec_add
      rw [if_pos ⟨hs0, hsn, h1, hvne⟩]
    have hvlt :
        (beToNat k.secret + beToNat ((derive_I E k i).take 32)) % E.n < E.n :=
      Nat.mod_lt _ (by omega)
    have hbe : beToNat (natToBe 32
          ((beToNat k.secret + beToNat ((derive_I E k i).take 32)) % E.n)) =
        (beToNat k.secret + beToNat ((derive_I E k i).take 32)) % E.n := by
      rw [beToNat_natToBe]
      exact Nat.mod_eq_of_lt
        (lt_of_lt_of_le hvlt (le_trans E.n_le (by norm_num)))
    have hverify : verify E (natToBe 32
        ((beToNat k.secret + beToNat ((derive_I E k i).take 32)) % E.n)) =
        true := by
      unfold verify
      rw [hbe, decide_eq_true (Nat.pos_of_ne_zero hvne), decide_eq_true hvlt]
      rfl
    rw [derive_private_eq_some E k i _ hadd hdep,
      make_of_verify E _ _ _ hverify]
    exact ⟨by rw [Nat.add_comm (beToNat ((derive_I E k i).take 32))], rfl, rfl⟩

/-- Claim C6: from_entropy computes HMAC-SHA512 keyed with the ASCII
    constant "Bitcoin seed" over the entropy, takes the left 32 bytes as
    the master secret and the right 32 bytes as the master chain code, sets
    lineage {prefixes, depth 0, parent fingerprint 0, child number 0}, and
    returns an invalid key object (not an error) when the left half is not
    a valid scalar: the flag and base state are the invalid defaults, while
    the constructor still stores the rejected left half as the secret. -/
theorem from_entropy_spec (E : Prims) (entropy : List Nat) (prefixes : Nat) :
    bitcoinSeed = [66, 105, 116, 99, 111, 105, 110, 32, 115, 101, 101, 100] ∧
    hd_private.from_entropy E entropy prefixes =
      (if verify E ((E.hmac512 entropy bitcoinSeed).take 32)
      then
        ⟨⟨true,
          E.pointOf ((E.hmac512 entropy bitcoinSeed).take 32),
          (E.hmac512 entropy bitcoinSeed).drop 32,
          ⟨prefixes, 0, 0, 0⟩⟩,
          (E.hmac512 entropy bitcoinSeed).take 32⟩
      else ⟨hd_public.default_key,
        (E.hmac512 entropy bitcoinSeed).take 32⟩) := by
  refine ⟨rfl, ?_⟩
  simp only [hd_private.from_entropy, hd_private.make_master,
    hd_private.from_private]
  cases hv : verify E ((E.hmac512 entropy bitcoinSeed).take 32) with
  | false => simp [hd_private.default_key]
  | true => simp [hd_private.make, from_secret, hv]

/-- Claim C7: to_hd_key produces exactly the 78-byte payload
    version(4 BE, the private word of the prefix pair) | depth(1) |
    parent_fingerprint(4 BE) | child_number(4 BE) | chain_code(32) | 0x00 |
    secret(32), followed by the 4-byte checksum of that payload, 82 bytes
    in total, and encoded is the base-58 text encoding of those bytes. -/
theorem to_hd_key_layout_spec (E : Prims) (k : hd_private)
    (hc : k.pub.chain.length = 32) (hs : k.secret.length = 32) :
    hd_private.to_hd_key E k =
      (natToBe 4 (to_prefix_priv k.pub.lineage.prefixes) ++
        natToBe 1 k.pub.lineage.depth ++
        natToBe 4 k.pub.lineage.parent_fingerprint ++
        natToBe 4 k.pub.lineage.child_number ++
        k.pub.chain ++ [0] ++ k.secret) ++
      E.checksum
        (natToBe 4 (to_prefix_priv k.pub.lineage.prefixes) ++
          natToBe 1 k.pub.lineage.depth ++
          natToBe 4 k.pub.lineage.parent_fingerprint ++
          natToBe 4 k.pub.lineage.child_number ++
          k.pub.chain ++ [0] ++ k.secret) ∧
    (hd_private.to_hd_key E k).length = 82 ∧
    hd_private.encoded E k = encode_base58 (hd_private.to_hd_key E k) := by
  refine ⟨rfl, ?_, rfl⟩
  unfold hd_private.to_hd_key insert_checksum
  simp only [List.length_append, natToBe_length, E.checksum_len,
    List.length_cons, List.length_nil, hc, hs]

/-- Claim C2: parsing a conforming 82-byte private wire key (byte-valued
    entries, zero padding byte, secret inside the data-model scalar range,
    version word equal to the private version of the supplied prefixes and
    checksum consistent with the 78-byte payload) and re-serializing the
    result reproduces the input byte-for-byte. -/
theorem to_hd_key_from_key_round_trip (E : Prims) (b : List Nat)
    (prefixes : Nat) (hlen : b.length = 82) (hbytes : ∀ x ∈ b, x < 256)
    (hver : beToNat (b.take 4) = to_prefix_priv prefixes)
    (hpad : (b.drop 45).take 1 = [0])
    (hsec : verify E ((b.drop 46).take 32) = true)
    (hck : b.drop 78 = E.checksum (b.take 78)) :
    hd_private.to_hd_key E (hd_private.from_key E b prefixes) = b := by
  have hmem : ∀ i j : Nat, ∀ x ∈ (b.drop i).take j, x < 256 := fun i j x hx =>
    hbytes x (List.drop_subset i b (List.take_subset j (b.drop i) hx))
  have hv4 : natToBe 4 (beToNat (b.take 4)) = b.take 4 := by
    have h := natToBe_beToNat (b.take 4)
      (fun x hx => hbytes x (List.take_subset 4 b hx))
    rwa [show (b.take 4).length = 4 from by simp [List.length_take, hlen]] at h
  have hgen : ∀ i j : Nat, i + j ≤ 82 →
      natToBe j (beToNat ((b.drop i).take j)) = (b.drop i).take j := by
    intro i j hij
    have hl : ((b.drop i).take j).length = j := by
      rw [List.length_take, List.length_drop, hlen]
      omega
    have h := natToBe_beToNat ((b.drop i).take j) (hmem i j)
    rwa [hl] at h
  unfold hd_private.from_key
  rw [if_pos hver, make_of_verify E _ _ _ hsec]
  unfold hd_private.to_hd_key insert_checksum
  simp only
  rw [← hver, hv4, hgen 4 1 (by omega), hgen 5 4 (by omega),
    hgen 9 4 (by omega)]
  have hpayload : b.take 4 ++ (b.drop 4).take 1 ++ (b.drop 5).take 4 ++
      (b.drop 9).take 4 ++ (b.drop 13).take 32 ++ [0] ++
      (b.drop 46).take 32 = b.take 78 := by
    rw [← hpad, take78_decomp b]
    simp [List.append_assoc]
  rw [hpayload, ← hck, List.take_append_drop]

/-- Extraction of the serialized public-key fields back out of the wire
    form built by the serializer. -/
theorem pub_key_fields (v d f c ch pt ck : List Nat)
    (hv : v.length = 4) (hd1 : d.length = 1) (hf : f.length = 4)
    (hc : c.length = 4) (hch : ch.length = 32) (hpt : pt.length = 33) :
    ((v ++ d ++ f ++ c ++ ch ++ pt ++ ck).take 4 = v) ∧
    (((v ++ d ++ f ++ c ++ ch ++ pt ++ ck).drop 4).take 1 = d) ∧
    (((v ++ d ++ f ++ c ++ ch ++ pt ++ ck).drop 5).take 4 = f) ∧
    (((v ++ d ++ f ++ c ++ ch ++ pt ++ ck).drop 9).take 4 = c) ∧
    (((v ++ d ++ f ++ c ++ ch ++ pt ++ ck).drop 13).take 32 = ch) ∧
    (((v ++ d ++ f ++ c ++ ch ++ pt ++ ck).drop 45).take 33 = pt) := by
  have hassoc : v ++ d ++ f ++ c ++ ch ++ pt ++ ck =
      v ++ (d ++ (f ++ (c ++ (ch ++ (pt ++ ck))))) := by
    simp [List.append_assoc]
  rw [hassoc]
  have hd4 : (v ++ (d ++ (f ++ (c ++ (ch ++ (pt ++ ck)))))).drop 4 =
      d ++ (f ++ (c ++ (ch ++ (pt ++ ck)))) := List.drop_left' hv
  have hd5 : (v ++ (d ++ (f ++ (c ++ (ch ++ (pt ++ ck)))))).drop 5 =
      f ++ (c ++ (ch ++ (pt ++ ck))) := by
    rw [← List.drop_drop 1 4, hd4]
    exact List.drop_left' hd1
  have hd9 : (v ++ (d ++ (f ++ (c ++ (ch ++ (pt ++ ck)))))).drop 9 =
      c ++ (ch ++ (pt ++ ck)) := by
    rw [← List.drop_drop 4 5, hd5]
    exact List.drop_left' hf
  have hd13 : (v ++ (d ++ (f ++ (c ++ (ch ++ (pt ++ ck)))))).drop 13 =
      ch ++ (pt ++ ck) := by
    rw [← List.drop_drop 4 9, hd9]
    exact List.drop_left' hc
  have hd45 : (v ++ (d ++ (f ++ (c ++ (ch ++ (pt ++ ck)))))).drop 45 =
      pt ++ ck := by
    rw [← List.drop_drop 32 13, hd13]
    exact List.drop_left' hch
  refine ⟨List.take_left' hv, ?_, ?_, ?_, ?_, ?_⟩
  · rw [hd4]
    exact List.take_left' hd1
  · rw [hd5]
    exact List.take_left' hf
  · rw [hd9]
    exact List.take_left' hc
  · rw [hd13]
    exact List.take_left' hch
  · rw [hd45]
    exact List.take_left' hpt

/-- Parsing back the serialized public part of a well-formed key recovers
    its point, chain code and lineage, with the public version word. -/
theorem pub_round_trip (E : Prims) (k : hd_private) (hwf : wf_key E k) :
    hd_public.from_key E (hd_public.to_hd_key E k.pub)
      (to_prefix_pub k.pub.lineage.prefixes) =
    ⟨true, k.pub.point, k.pub.chain,
      ⟨to_prefix_pub k.pub.lineage.prefixes, k.pub.lineage.depth,
        k.pub.lineage.parent_fingerprint, k.pub.lineage.child_number⟩⟩ := by
  obtain ⟨-, hpt, hch, hdep, hfp, hcn⟩ := hwf
  have hptl : k.pub.point.length = 33 := by rw [hpt]; exact E.pointOf_len _
  obtain ⟨e1, e2, e3, e4, e5, e6⟩ := pub_key_fields
    (natToBe 4 (to_prefix_pub k.pub.lineage.prefixes))
    (natToBe 1 k.pub.lineage.depth)
    (natToBe 4 k.pub.lineage.parent_fingerprint)
    (natToBe 4 k.pub.lineage.child_number)
    k.pub.chain k.pub.point
    (E.checksum
      (natToBe 4 (to_prefix_pub k.pub.lineage.prefixes) ++
        natToBe 1 k.pub.lineage.depth ++
        natToBe 4 k.pub.lineage.parent_fingerprint ++
        natToBe 4 k.pub.lineage.child_number ++ k.pub.chain ++ k.pub.point))
    (natToBe_length 4 _) (natToBe_length 1 _) (natToBe_length 4 _)
    (natToBe_length 4 _) hch hptl
  unfold hd_public.from_key hd_public.to_hd_key insert_checksum
  rw [e1, e2, e3, e4, e5, e6]
  have hverw : beToNat (natToBe 4 (to_prefix_pub k.pub.lineage.prefixes)) =
      to_prefix_pub k.pub.lineage.prefixes := by
    rw [beToNat_natToBe]
    exact Nat.mod_eq_of_lt (lt_of_lt_of_le
      (Nat.mod_lt _ (by norm_num)) (by norm_num))
  rw [hverw, if_pos rfl]
  unfold hd_public.make
  rw [hpt, E.pointOf_valid, if_pos rfl, ← hpt]
  have hdw : beToNat (natToBe 1 k.pub.lineage.depth) = k.pub.lineage.depth := by
    rw [beToNat_natToBe]
    exact Nat.mod_eq_of_lt (by omega)
  have hfw : beToNat (natToBe 4 k.pub.lineage.parent_fingerprint) =
      k.pub.lineage.parent_fingerprint := by
    rw [beToNat_natToBe]
    exact Nat.mod_eq_of_lt (by omega)
  have hcw : beToNat (natToBe 4 k.pub.lineage.child_number) =
      k.pub.lineage.child_number := by
    rw [beToNat_natToBe]
    exact Nat.mod_eq_of_lt (by omega)
  rw [hdw, hfw, hcw]

/-- Claim C9: for every valid (well-formed) private key, to_public returns
    an extended public key with unchanged chain code, depth, parent
    fingerprint and child number, with payload the curve point computed
    from the secret, and with the version remapped to the public word of
    the prefix pair; and derive_public(i) equals
    to_public(derive_private(i)) for every index. -/
theorem to_public_preserves_lineage_spec (E : Prims) (k : hd_private)
    (hwf : wf_key E k) :
    (hd_private.to_public E k).valid = true ∧
    (hd_private.to_public E k).point = E.pointOf k.secret ∧
    (hd_private.to_public E k).chain = k.pub.chain ∧
    (hd_private.to_public E k).lineage.depth = k.pub.lineage.depth ∧
    (hd_private.to_public E k).lineage.parent_fingerprint =
      k.pub.lineage.parent_fingerprint ∧
    (hd_private.to_public E k).lineage.child_number =
      k.pub.lineage.child_number ∧
    (hd_private.to_public E k).lineage.prefixes =
      to_prefix_pub k.pub.lineage.prefixes ∧
    (∀ i, hd_private.derive_public E k i =
      hd_private.to_public E (hd_private.derive_private E k i)) := by
  have h := pub_round_trip E k hwf
  have hpt := hwf.2.1
  unfold hd_private.to_public
  rw [h]
  exact ⟨rfl, hpt, rfl, rfl, rfl, rfl, rfl, fun i => rfl⟩

/-- Claim C3 (amended): from_string performs no checksum verification: for
    every text whose base-58 decode structurally yields 82 bytes, the
    result is from_key of the decoded bytes and depends only on their
    first 78 bytes, so the 4 trailing checksum bytes are ignored and a
    checksum mismatch can still produce a valid key. -/
theorem from_string_ignores_checksum (E : Prims) (cs : List Nat)
    (prefixes : Nat) (bs : List Nat) (h : decode_base58 cs = some bs) :
    hd_private.from_string E cs prefixes =
      hd_private.from_key E (bs.take 78) prefixes := by
  unfold hd_private.from_string
  rw [h]
  exact (from_key_take78 E bs prefixes).symm

/-- Claim C3 is false of the code as stated: this explicit text decodes
    structurally to 82 bytes whose checksum fails verification, yet
    from_string returns a valid key, not an invalid one. -/
theorem from_string_checksum_counterexample :
    decode_base58 c3text = some c3bytes ∧
    c3bytes.drop 78 ≠ E0.checksum (c3bytes.take 78) ∧
    (hd_private.from_string E0 c3text prefixesT).pub.valid = true :=
  ⟨by decide, by decide, by decide⟩

/-! ## Witnesses: the claim theorems applied at explicit inputs -/

theorem derive_private_hmac_child_spec_witness :
    (hd_private.derive_private E0 keyT 0).pub.valid = true := by
  have h := derive_private_hmac_child_spec E0 keyT 0 (by decide) (by decide)
    (by decide) (by decide)
  exact (h.2.2 (by decide) (by decide)).2.2

theorem to_hd_key_from_key_round_trip_witness :
    hd_private.to_hd_key E0 (hd_private.from_key E0 wireT prefixesT) =
      wireT :=
  to_hd_key_from_key_round_trip E0 wireT prefixesT (by decide) (by decide)
    (by decide) (by decide) (by decide) (by decide)

theorem from_string_ignores_checksum_witness :
    hd_private.from_string E0 c3text prefixesT =
      hd_private.from_key E0 (c3bytes.take 78) prefixesT :=
  from_string_ignores_checksum E0 c3text prefixesT c3bytes (by decide)

theorem invalid_parent_poisons_derivation_witness :
    (hd_private.derive_private E0 hd_private.default_key 5).pub.valid =
      false :=
  invalid_parent_poisons_derivation E0 hd_private.default_key 5
    (by unfold validity_inv; decide) (by decide)

theorem derive_private_depth_spec_witness :
    (hd_private.derive_private E0 keyT 0).pub.lineage.depth = 2 := by
  have h := (derive_private_depth_spec E0 keyT 0).1 (by decide) (by decide)
  exact h.trans (by decide)

theorem to_hd_key_layout_spec_witness :
    (hd_private.to_hd_key E0 keyT).length = 82 :=
  (to_hd_key_layout_spec E0 keyT (by decide) (by decide)).2.1

theorem from_key_version_mismatch_spec_witness :
    hd_private.from_key E0 wireT (to_prefixes 8 9) =
      hd_private.default_key :=
  (from_key_version_mismatch_spec E0 wireT (to_prefixes 8 9) (by decide)).1

theorem to_public_preserves_lineage_spec_witness :
    (hd_private.to_public E0 keyT).valid = true :=
  (to_public_preserves_lineage_spec E0 keyT (by unfold wf_key; decide)).1

theorem from_key_checksum_independence_witness :
    hd_private.from_key E0 wireT prefixesT =
      hd_private.from_key E0 wireT2 prefixesT :=
  from_key_checksum_independence E0 wireT wireT2 prefixesT (by decide)
